import Mathlib

/-!
Verification development for the mwrt bytecode virtual machine.

The Rust sources under src/ are shallowly embedded below.  A machine word
is a 64-bit usize, represented as a Nat bit pattern (< 2^64) with explicit
wrapping (% 2^64) wherever the Rust code can overflow.  Signed (isize)
operations reinterpret the bit pattern via toSigned / toUnsigned.
Fallible Rust code returning Result is embedded as the RRes type below;
a Rust panic (divide by zero, slice index out of range) is embedded as the
RRes.crash outcome, distinct from every ErrorCode fault.
-/

namespace Mwrt

/-- 2^64, the number of usize bit patterns on the 64-bit host. -/
def M64 : Nat := 2 ^ 64

/-- Error codes, from src/error.rs (ErrorCode). -/
inductive ErrorCode where
  | InvalidCodeObject
  | Unaligned
  | InvalidAddress
  | InvalidSize
  | OutOfBounds
  | UnknownOpcode
  | TruncatedCode
  | StackUnderflow
  | StackOverflow
  | LocalsOverflow
  | OutOfMemory
  | TimeExceeded
  | CyclesExceeded
  | Break
  deriving Repr, DecidableEq

/-- Outcome of a fallible Rust computation: Ok, Err(ErrorCode), or a Rust
panic (crash).  The frame pointer carried by RuntimeError is diagnostic
only and is not modelled. -/
inductive RRes (α : Type) where
  | ok : α → RRes α
  | err : ErrorCode → RRes α
  | crash : RRes α
  deriving Repr, DecidableEq

def RRes.bind {α β : Type} : RRes α → (α → RRes β) → RRes β
  | .ok a, f => f a
  | .err e, _ => .err e
  | .crash, _ => .crash

instance : Monad RRes where
  pure := RRes.ok
  bind := RRes.bind

/-- Bit pattern of a signed 64-bit value as an Int. -/
def toSigned (p : Nat) : Int :=
  if p < 2 ^ 63 then (p : Int) else (p : Int) - (M64 : Int)

/-- Int back to a usize bit pattern (two's complement, mod 2^64). -/
def toUnsigned (i : Int) : Nat := (i % (M64 : Int)).toNat

/-! ## src/decode_int.rs -/

/-- Result of decoding a varint: value bit pattern and the index just past
the encoding (DecodedInt in src/decode_int.rs; the isize value field is
represented by its bit pattern). -/
structure DecodedInt where
  value : Nat
  new_index : Nat
  deriving Repr, DecidableEq

/-- MAX_SHIFT = size_of::<usize>() * 8. -/
def MAX_SHIFT : Nat := 64

/-- The while loop of decode_uint, structurally recursing on the list of
bytes remaining from the current index.  Returns the accumulated value and
the number of bytes consumed.  Each `value | (payload << shift)` is an
isize or/shift, which keeps only the low 64 bits of the shifted payload. -/
def decodeUintGo : List Nat → Nat → Nat → Option (Nat × Nat)
  | [], _, _ => none
  | b :: rest, value, shift =>
    if b &&& 0x80 ≠ 0 then
      -- value = value | (((bytes[index] & 0x7f) as isize) << shift)
      let value' := value ||| ((b &&& 0x7f) <<< shift) % M64
      match rest with
      | [] => none                  -- index += 1; if index >= bytes.len() { return None }
      | _ :: _ =>
        if shift + 7 ≥ MAX_SHIFT then none  -- shift += 7; if shift >= MAX_SHIFT { return None }
        else (decodeUintGo rest value' (shift + 7)).map fun vc => (vc.1, vc.2 + 1)
    else
      -- value = value | ((bytes[index] as isize) << shift); Some(...)
      some (value ||| (b <<< shift) % M64, 1)

/-- decode_uint from src/decode_int.rs: varint, 7 bits per byte, LSB first,
continuation bit 0x80. -/
def decode_uint (bytes : List Nat) (index : Nat) : Option DecodedInt :=
  if index ≥ bytes.length then none
  else (decodeUintGo (bytes.drop index) 0 0).map fun vc => ⟨vc.1, index + vc.2⟩

/-- Zig-zag post-transformation of decode_sint on bit patterns:
(value >> 1) ^ -(value & 1), where >> on isize is an arithmetic shift. -/
def zigzagDecode (p : Nat) : Nat :=
  let asr1 := if p < 2 ^ 63 then p >>> 1 else (p >>> 1) + 2 ^ 63
  Nat.xor asr1 (if p % 2 = 1 then M64 - 1 else 0)

/-- decode_sint from src/decode_int.rs. -/
def decode_sint (bytes : List Nat) (index : Nat) : Option DecodedInt :=
  (decode_uint bytes index).map fun d => ⟨zigzagDecode d.value, d.new_index⟩

/-- The mathematical (unbounded) value of a varint encoding, following the
spec's words: 7 bits at a time, LSB first, high bit set on all but the
last byte.  Used only to compare against what decode_uint accepts. -/
def specUintValue : List Nat → Nat
  | [] => 0
  | b :: rest => if b &&& 0x80 ≠ 0 then (b &&& 0x7f) + 128 * specUintValue rest else b

/-! ## src/opcode.rs -/

/-- Opcode, from src/opcode.rs, with its numeric encoding mirrored by
Opcode.from_u8 below. -/
inductive Opcode where
  | Break | Nop | Dup | Drop | Call | Return | New | Size
  | LoadSlot | StoreSlot | If
  | Immediate | Constant | LoadSlotN | StoreSlotN
  | LoadLocalN | StoreLocalN | LoadGlobalN | StoreGlobalN
  | Unary | Binary | CallN | ReturnN | Jump
  | NewNN
  | Unknown
  deriving Repr, DecidableEq

def FIRST_N1_OPCODE : Nat := 0x10
def FIRST_N2_OPCODE : Nat := 0x20
def LAST_N_OPCODE : Nat := 0x30

/-- Opcode::from_u8.  The Rust code transmutes the byte; any value that is
not a declared discriminant reaches the dispatch's catch-all arm, which is
what the Unknown result models. -/
def Opcode.from_u8 (n : Nat) : Opcode :=
  if n = 0x00 then .Break else if n = 0x01 then .Nop
  else if n = 0x02 then .Dup else if n = 0x03 then .Drop
  else if n = 0x04 then .Call else if n = 0x05 then .Return
  else if n = 0x06 then .New else if n = 0x07 then .Size
  else if n = 0x08 then .LoadSlot else if n = 0x09 then .StoreSlot
  else if n = 0x0a then .If
  else if n = 0x10 then .Immediate else if n = 0x11 then .Constant
  else if n = 0x12 then .LoadSlotN else if n = 0x13 then .StoreSlotN
  else if n = 0x14 then .LoadLocalN else if n = 0x15 then .StoreLocalN
  else if n = 0x16 then .LoadGlobalN else if n = 0x17 then .StoreGlobalN
  else if n = 0x18 then .Unary else if n = 0x19 then .Binary
  else if n = 0x1a then .CallN else if n = 0x1b then .ReturnN
  else if n = 0x1c then .Jump
  else if n = 0x20 then .NewNN
  else .Unknown

/-- Unary sub-operation selector (src/opcode.rs). -/
inductive UnaryOp where
  | Not | Negative | BitNot | Unknown
  deriving Repr, DecidableEq

def UnaryOp.from_usize (n : Nat) : UnaryOp :=
  if n = 0 then .Not else if n = 1 then .Negative else if n = 2 then .BitNot else .Unknown

/-- Binary sub-operation selector (src/opcode.rs). -/
inductive BinaryOp where
  | Add | Subtract | Multiply | Divide | Modulo
  | Equals | LessThan | LessOrEqual
  | BitOr | BitAnd | BitXor
  | ShiftLeft | ShiftRight | SignShiftRight
  | Unknown
  deriving Repr, DecidableEq

def BinaryOp.from_usize (n : Nat) : BinaryOp :=
  if n = 0 then .Add else if n = 1 then .Subtract else if n = 2 then .Multiply
  else if n = 3 then .Divide else if n = 4 then .Modulo
  else if n = 5 then .Equals else if n = 6 then .LessThan else if n = 7 then .LessOrEqual
  else if n = 8 then .BitOr else if n = 9 then .BitAnd else if n = 10 then .BitXor
  else if n = 11 then .ShiftLeft else if n = 12 then .ShiftRight
  else if n = 13 then .SignShiftRight
  else .Unknown

/-! ## src/disassembler.rs: decode_next -/

/-- A decoded instruction (src/disassembler.rs Instruction).  The isize
immediates n1, n2 are represented by their usize bit patterns, so the
`as usize` casts of the dispatch are the identity and `as u16` is % 2^16. -/
structure Instr where
  opcode : Opcode
  n1 : Nat
  n2 : Nat
  offset : Nat
  deriving Repr, DecidableEq

/-- decode_next from src/disassembler.rs: one opcode byte, then 0, 1 or 2
zig-zag varint immediates depending on the opcode's high nibble. -/
def decode_next (bytes : List Nat) (pc : Nat) : Except ErrorCode (Instr × Nat) :=
  if pc ≥ bytes.length then .error .TruncatedCode
  else
    let b := bytes.getD pc 0
    let i := pc + 1
    if FIRST_N1_OPCODE ≤ b ∧ b < LAST_N_OPCODE then
      match decode_sint bytes i with
      | none => .error .TruncatedCode
      | some d1 =>
        if FIRST_N2_OPCODE ≤ b then
          match decode_sint bytes d1.new_index with
          | none => .error .TruncatedCode
          | some d2 => .ok (⟨Opcode.from_u8 b, d1.value, d2.value, pc⟩, d2.new_index)
        else .ok (⟨Opcode.from_u8 b, d1.value, 0, pc⟩, d1.new_index)
    else .ok (⟨Opcode.from_u8 b, 0, 0, pc⟩, i)

/-! ## Memory model

The host supplies two byte regions: the read-only constant pool and the
writable heap.  The pool is kept as its byte contents plus its base
address.  The heap region is kept word-granular, which is the granularity
at which the VM reads and writes it; the external mwgc allocator is
modelled from the spec as the bump/region scheme the spec describes
(allocations are zero-filled word arrays carved off in order, and
is_ptr_inside is containment in the caller-owned region). -/

def wordSize : Nat := 8

structure Pool where
  base : Nat
  data : List Nat          -- byte contents
  deriving Repr, DecidableEq

/-- Modelled from the spec: the external mwgc Heap.  words holds the
region's word contents, next is the bump index (in words) of the next free
word, allocs records each allocation's byte address and byte length (for
the external size_of_ptr query). -/
structure HeapM where
  base : Nat
  words : List Nat
  next : Nat
  allocs : List (Nat × Nat)
  deriving Repr, DecidableEq

/-- Modelled from the spec: mwgc allocate_array::<usize>(n) — zero-filled
word array, or None when the region is exhausted.  Returns the pointer as
a usize address. -/
def HeapM.allocate_array (h : HeapM) (n : Nat) : Option (HeapM × Nat) :=
  if h.next + n ≤ h.words.length then
    let addr := h.base + wordSize * h.next
    some ({ h with
            words := h.words.take h.next ++ List.replicate n 0 ++ h.words.drop (h.next + n),
            next := h.next + n,
            allocs := h.allocs ++ [(addr, wordSize * n)] }, addr)
  else none

/-- Modelled from the spec: mwgc is_ptr_inside — containment of the pointer
in the caller-owned heap region. -/
def HeapM.is_ptr_inside (h : HeapM) (p : Nat) : Bool :=
  decide (h.base ≤ p ∧ p < h.base + wordSize * h.words.length)

/-- The word stored at byte address p of the heap region. -/
def HeapM.wordAt (h : HeapM) (p : Nat) : Nat :=
  h.words.getD ((p - h.base) / wordSize) 0

/-- Store a word at byte address p of the heap region. -/
def HeapM.writeWord (h : HeapM) (p v : Nat) : HeapM :=
  { h with words := h.words.set ((p - h.base) / wordSize) v }

/-- Byte j of a heap word, for the rare reads that view the heap as bytes
(a code header fetched through as_safe_constant). -/
def HeapM.byteAt (h : HeapM) (p : Nat) : Nat :=
  (h.words.getD ((p - h.base) / wordSize) 0 >>> (8 * ((p - h.base) % wordSize))) &&& 0xff

/-- Little-endian word read from the pool's bytes at byte offset off. -/
def readWordLE (bytes : List Nat) (off : Nat) : Nat :=
  (List.range wordSize).foldr (fun j acc => acc ||| ((bytes.getD (off + j) 0 &&& 0xff) <<< (8 * j))) 0

/-- The VM state outside the current call chain: constant pool, heap and
the globals array (src/runtime.rs Runtime). -/
structure RState where
  pool : Pool
  heap : HeapM
  globals : List Nat
  deriving Repr, DecidableEq

def RState.is_in_constant_pool_range (rs : RState) (addr len : Nat) : Bool :=
  decide (rs.pool.base ≤ addr ∧ addr + len ≤ rs.pool.base + rs.pool.data.length)

/-! ## Stack frame (semantics of RuntimeContext in src/stack_frame.rs)

The operand stack is modelled top-first: the head of `stack` is the top
slot stack[sp-1] of the source, so the source's stack[0..sp] read bottom
up is `stack.reverse`.  sp is `stack.length`; the frame's sp field is a
u8 in the source, which matters only in get_n where a count is cast with
`as u8`. -/

structure Frame where
  maxStack : Nat
  bytecode : List Nat
  pc : Nat
  locals : List Nat        -- length = the code object's local_count
  stack : List Nat         -- top-first; length = sp
  deriving Repr, DecidableEq

/-- get: pop one word; StackUnderflow if sp == 0. -/
def Frame.get (fr : Frame) : RRes (Frame × Nat) :=
  match fr.stack with
  | [] => .err .StackUnderflow
  | v :: rest => .ok ({ fr with stack := rest }, v)

/-- put: push one word; StackOverflow if sp == max_stack. -/
def Frame.put (fr : Frame) (v : Nat) : RRes Frame :=
  if fr.stack.length ≥ fr.maxStack then .err .StackOverflow
  else .ok { fr with stack := v :: fr.stack }

/-- get_n from src/stack_frame.rs (RuntimeContext::get_n): pop n words and
return the slice stack[sp-n .. sp], i.e. the popped words in caller-push
order.  The source compares and subtracts the count after an `n as u8`
cast, so only n % 256 is checked against sp and subtracted from it; the
returned slice still spans n words of the sp-long stack view, so when the
truncated check passes with n ≥ 256 the slice indexing panics. -/
def Frame.get_n (fr : Frame) (n : Nat) : RRes (Frame × List Nat) :=
  let sp := fr.stack.length
  if sp < n % 256 then .err .StackUnderflow
  else if (sp - n % 256) + n ≤ sp then
    .ok ({ fr with stack := fr.stack.drop (n % 256) }, (fr.stack.take (n % 256)).reverse)
  else .crash

/-- put_n: push each word of items in order. -/
def Frame.put_n (fr : Frame) : List Nat → RRes Frame
  | [] => .ok fr
  | v :: rest => (fr.put v).bind fun fr' => fr'.put_n rest

/-- start_locals: copy the arguments into the zero-initialized locals;
LocalsOverflow when there are more arguments than locals. -/
def Frame.start_locals (fr : Frame) (values : List Nat) : RRes Frame :=
  if values.length > fr.locals.length then .err .LocalsOverflow
  else .ok { fr with locals := values ++ List.replicate (fr.locals.length - values.length) 0 }

/-! ## src/runtime.rs: safe memory helpers and object operations -/

/-- as_safe_constant for a usize target: readable if the 8-byte range is in
the pool, or if the pointer is inside the heap (src/runtime.rs
as_safe_constant). -/
def RState.safeConstantWord (rs : RState) (addr : Nat) : RRes Nat :=
  if rs.is_in_constant_pool_range addr wordSize then
    .ok (readWordLE rs.pool.data (addr - rs.pool.base))
  else if rs.heap.is_ptr_inside addr then
    .ok (rs.heap.wordAt addr)
  else .err .InvalidAddress

/-- as_safe_constant for a [u8; 4] target (the code-block header). -/
def RState.safeConstantHeader (rs : RState) (addr : Nat) : RRes (Nat × Nat × Nat × Nat) :=
  let byte := fun (p : Nat) =>
    if rs.is_in_constant_pool_range p 1 then rs.pool.data.getD (p - rs.pool.base) 0
    else rs.heap.byteAt p
  if rs.is_in_constant_pool_range addr 4 ∨ rs.heap.is_ptr_inside addr then
    .ok (byte addr, byte (addr + 1), byte (addr + 2), byte (addr + 3))
  else .err .InvalidAddress

/-- as_safe_constant_slice: a byte slice wholly inside the pool. -/
def RState.safeConstantSlice (rs : RState) (addr len : Nat) : RRes (List Nat) :=
  if rs.is_in_constant_pool_range addr len then
    .ok ((rs.pool.data.drop (addr - rs.pool.base)).take len)
  else .err .InvalidAddress

/-- object_size (src/runtime.rs): heap addresses only; the external
size_of_ptr query is modelled from the spec via the allocation records. -/
def RState.object_size (rs : RState) (addr : Nat) : RRes Nat :=
  if rs.heap.is_ptr_inside addr then
    .ok (((rs.heap.allocs.find? fun a => decide (a.1 ≤ addr ∧ addr < a.1 + a.2)).map
          (fun a => a.2)).getD 0 / wordSize)
  else .err .InvalidAddress

/-- load_slot (src/runtime.rs): aligned slot address readable from pool or
heap.  The usize address arithmetic wraps mod 2^64. -/
def RState.load_slot (rs : RState) (addr slot : Nat) : RRes Nat :=
  let slot_addr := (addr + slot * wordSize) % M64
  if slot_addr % wordSize ≠ 0 then .err .Unaligned
  else rs.safeConstantWord slot_addr

/-- store_slot (src/runtime.rs lines 312-325): the slot address must be
aligned and inside the heap (as_safe_heap_mut, lines 402-408); only then
is the word written.  Every failing path returns before any write. -/
def RState.store_slot (rs : RState) (addr slot value : Nat) : RRes RState :=
  let slot_addr := (addr + slot * wordSize) % M64
  if slot_addr % wordSize ≠ 0 then .err .Unaligned
  else if rs.heap.is_ptr_inside slot_addr then
    .ok { rs with heap := rs.heap.writeWord slot_addr value }
  else .err .InvalidAddress

/-- The obj[i] = fields[i] copy loop of new_object: store the fields at
consecutive word addresses starting at addr. -/
def HeapM.writeWords (h : HeapM) (addr : Nat) : List Nat → HeapM
  | [] => h
  | v :: rest => (h.writeWord addr v).writeWords (addr + wordSize) rest

/-- new_object (src/runtime.rs lines 327-340): bounds checks, allocation,
then fill from the stack via get_n. Returns the object's address. -/
def RState.new_object (rs : RState) (slots from_stack : Nat) (fr : Frame) :
    RRes (RState × Frame × Nat) :=
  if slots > 64 then .err .InvalidSize
  else if from_stack > slots then .err .OutOfBounds
  else match rs.heap.allocate_array slots with
    | none => .err .OutOfMemory
    | some (h', addr) =>
      (fr.get_n from_stack).bind fun frFields =>
        .ok ({ rs with heap := h'.writeWords addr frFields.2 }, frFields.1, addr)

/-! ## src/runtime.rs: unary and binary operations

Operands are usize bit patterns; the source casts them to isize.  Release
(wrapping) semantics are used for +, -, *, unary negation and for shift
amounts (masked to the low 6 bits), matching the spec's wrapping
arithmetic.  Division and remainder check for a zero divisor and for
MIN / -1 in every build mode; the source performs neither check, so those
inputs are a Rust panic, modelled as crash. -/

def RState.unary (op : UnaryOp) (p : Nat) : RRes Nat :=
  match op with
  | .Not => .ok (if p = 0 then 1 else 0)
  | .Negative => .ok ((M64 - p % M64) % M64)
  | .BitNot => .ok (M64 - 1 - p % M64)
  | .Unknown => .err .UnknownOpcode

def RState.binary (op : BinaryOp) (p1 p2 : Nat) : RRes Nat :=
  match op with
  | .Add => .ok ((p1 + p2) % M64)
  | .Subtract => .ok ((p1 + M64 - p2 % M64) % M64)
  | .Multiply => .ok ((p1 * p2) % M64)
  | .Divide =>
      if p2 % M64 = 0 then .crash
      else if p1 % M64 = 2 ^ 63 ∧ p2 % M64 = M64 - 1 then .crash
      else .ok (toUnsigned (Int.tdiv (toSigned p1) (toSigned p2)))
  | .Modulo =>
      if p2 % M64 = 0 then .crash
      else if p1 % M64 = 2 ^ 63 ∧ p2 % M64 = M64 - 1 then .crash
      else .ok (toUnsigned (Int.tmod (toSigned p1) (toSigned p2)))
  | .Equals => .ok (if p1 % M64 = p2 % M64 then 1 else 0)
  | .LessThan => .ok (if toSigned p1 < toSigned p2 then 1 else 0)
  | .LessOrEqual => .ok (if toSigned p1 ≤ toSigned p2 then 1 else 0)
  | .BitOr => .ok ((p1 ||| p2) % M64)
  | .BitAnd => .ok ((p1 &&& p2) % M64)
  | .BitXor => .ok ((Nat.xor p1 p2) % M64)
  | .ShiftLeft => .ok ((p1 <<< (p2 % 64)) % M64)
  | .ShiftRight => .ok ((p1 % M64) >>> (p2 % 64))
  | .SignShiftRight => .ok (toUnsigned (Int.fdiv (toSigned p1) ((2 : Int) ^ (p2 % 64))))
  | .Unknown => .err .UnknownOpcode

/-! ## src/runtime.rs: dispatch -/

/-- What to do after executing a bytecode (src/runtime.rs Disposition). -/
inductive Disp where
  | Continue
  | Skip
  | Call (code_index count : Nat)
  | Return (count : Nat)
  | Jump (new_pc : Nat)
  deriving Repr, DecidableEq

/-- execute_one (src/runtime.rs lines 125-254): dispatch one decoded
instruction against the current frame.  Errors return before any state is
built, so a failing arm leaves frame, globals and heap unchanged. -/
def execute_one (rs : RState) (instruction : Instr) (fr : Frame) :
    RRes (RState × Frame × Disp) :=
  match instruction.opcode with
  | .Break => .err .Break
  | .Nop => .ok (rs, fr, .Continue)
  | .Dup =>
      (fr.get).bind fun frv =>
        (frv.1.put frv.2).bind fun fr1 =>
          (fr1.put frv.2).bind fun fr2 => .ok (rs, fr2, .Continue)
  | .Drop => (fr.get).bind fun frv => .ok (rs, frv.1, .Continue)
  | .Call =>
      (fr.get).bind fun frc =>
        (frc.1.get).bind fun fro => .ok (rs, fro.1, .Call fro.2 frc.2)
  | .Return => (fr.get).bind fun frc => .ok (rs, frc.1, .Return frc.2)
  | .New =>
      (fr.get).bind fun frf =>
        (frf.1.get).bind fun frs =>
          (rs.new_object frs.2 frf.2 frs.1).bind fun rfo =>
            (rfo.2.1.put rfo.2.2).bind fun fr' => .ok (rfo.1, fr', .Continue)
  | .Size =>
      (fr.get).bind fun fra =>
        (rs.object_size fra.2).bind fun sz =>
          (fra.1.put sz).bind fun fr' => .ok (rs, fr', .Continue)
  | .LoadSlot =>
      (fr.get).bind fun frs =>
        (frs.1.get).bind fun fra =>
          (rs.load_slot fra.2 frs.2).bind fun v =>
            (fra.1.put v).bind fun fr' => .ok (rs, fr', .Continue)
  | .StoreSlot =>
      (fr.get).bind fun frv =>
        (frv.1.get).bind fun frs =>
          (frs.1.get).bind fun fra =>
            (rs.store_slot fra.2 frs.2 frv.2).bind fun rs' => .ok (rs', fra.1, .Continue)
  | .If =>
      (fr.get).bind fun frv =>
        if frv.2 = 0 then .ok (rs, frv.1, .Skip) else .ok (rs, frv.1, .Continue)
  | .Immediate => (fr.put instruction.n1).bind fun fr' => .ok (rs, fr', .Continue)
  | .Constant =>
      (fr.put ((rs.pool.base + (instruction.n1 <<< 2) % M64) % M64)).bind fun fr' =>
        .ok (rs, fr', .Continue)
  | .LoadSlotN =>
      (fr.get).bind fun fra =>
        (rs.load_slot fra.2 instruction.n1).bind fun v =>
          (fra.1.put v).bind fun fr' => .ok (rs, fr', .Continue)
  | .StoreSlotN =>
      (fr.get).bind fun frv =>
        (frv.1.get).bind fun fra =>
          (rs.store_slot fra.2 instruction.n1 frv.2).bind fun rs' => .ok (rs', fra.1, .Continue)
  | .LoadLocalN =>
      if instruction.n1 ≥ fr.locals.length then .err .OutOfBounds
      else (fr.put (fr.locals.getD instruction.n1 0)).bind fun fr' => .ok (rs, fr', .Continue)
  | .StoreLocalN =>
      if instruction.n1 ≥ fr.locals.length then .err .OutOfBounds
      else (fr.get).bind fun frv =>
        .ok (rs, { frv.1 with locals := frv.1.locals.set instruction.n1 frv.2 }, .Continue)
  | .LoadGlobalN =>
      if instruction.n1 ≥ rs.globals.length then .err .OutOfBounds
      else (fr.put (rs.globals.getD instruction.n1 0)).bind fun fr' => .ok (rs, fr', .Continue)
  | .StoreGlobalN =>
      if instruction.n1 ≥ rs.globals.length then .err .OutOfBounds
      else (fr.get).bind fun frv =>
        .ok ({ rs with globals := rs.globals.set instruction.n1 frv.2 }, frv.1, .Continue)
  | .Unary =>
      (fr.get).bind fun frv =>
        (RState.unary (UnaryOp.from_usize instruction.n1) frv.2).bind fun r =>
          (frv.1.put r).bind fun fr' => .ok (rs, fr', .Continue)
  | .Binary =>
      (fr.get).bind fun fr2 =>
        (fr2.1.get).bind fun fr1 =>
          (RState.binary (BinaryOp.from_usize instruction.n1) fr1.2 fr2.2).bind fun r =>
            (fr1.1.put r).bind fun fr' => .ok (rs, fr', .Continue)
  | .CallN =>
      (fr.get).bind fun fro => .ok (rs, fro.1, .Call fro.2 instruction.n1)
  | .ReturnN => .ok (rs, fr, .Return instruction.n1)
  | .Jump => .ok (rs, fr, .Jump (instruction.n1 % 2 ^ 16))
  | .NewNN =>
      (rs.new_object instruction.n1 instruction.n2 fr).bind fun rfo =>
        (rfo.2.1.put rfo.2.2).bind fun fr' => .ok (rfo.1, fr', .Continue)
  | .Unknown => .err .UnknownOpcode

/-! ## src/runtime.rs: frame construction and the interpreter loop -/

/-- frame_from_code (src/runtime.rs lines 258-284): parse the code header
at pool base + offset, validate it, allocate the frame on the heap (frame
header = 2 words on a 64-bit host) and load the arguments into the
zero-initialized locals. -/
def frame_from_code (rs : RState) (offset : Nat) (args : List Nat) :
    RRes (RState × Frame) :=
  let addr := (rs.pool.base + offset) % M64
  (rs.safeConstantHeader addr).bind fun h =>
    if h.1 > 63 ∨ h.2.1 > 63 then .err .InvalidCodeObject
    else
      let len := h.2.2.1 + (h.2.2.2 <<< 8)
      (rs.safeConstantSlice (addr + 4) len).bind fun bytecode =>
        match rs.heap.allocate_array (2 + h.1 + h.2.1) with
        | none => .err .OutOfMemory
        | some (h', _) =>
          let fr : Frame :=
            { maxStack := h.2.1, bytecode := bytecode, pc := 0,
              locals := List.replicate h.1 0, stack := [] }
          (fr.start_locals args).bind fun fr' => .ok ({ rs with heap := h' }, fr')

/-- Result of an execute call.  ok carries the (written-back) results view
and the returned count; timeout is the artifact of the fuel parameter that
makes the source's unbounded loop a total function. -/
inductive ExecResult where
  | ok (results : List Nat) (count : Nat)
  | err (e : ErrorCode)
  | crash
  | timeout
  deriving Repr, DecidableEq

/-- `if let Some(m) = max_cycles { cycles += 1; ... }` -/
def bumpCycles (mc : Option Nat) (c : Nat) : Nat :=
  match mc with
  | some _ => c + 1
  | none => c

/-- The `cycles > m` test right after the increment. -/
def cyclesOver (mc : Option Nat) (c : Nat) : Bool :=
  match mc with
  | some m => decide (c + 1 > m)
  | none => false

/-- The top-level Return write-back (src/runtime.rs lines 106-110): copy
the first min(count, results.len()) returned values into the results view
and report count to the caller.  values is stack_results, in push order,
of length count. -/
def returnToHost (results values : List Nat) (count : Nat) : List Nat × Nat :=
  let n := if count < results.length then count else results.length
  ((values.take n) ++ results.drop n, count)

/-- The interpreter loop of execute (src/runtime.rs lines 61-122),
specialized to current_time = None so the deadline check never fires.
prev is the chain of suspended caller frames (up_frame links).  fuel bounds
the number of iterations; dec is a ghost counter of successfully decoded
instructions, threaded through untouched by every branch and reported with
the result. -/
def execLoop : Nat → RState → Frame → List Frame → List Nat → Option Nat → Bool →
    Nat → Nat → ExecResult × Nat
  | 0, _, _, _, _, _, _, _, dec => (.timeout, dec)
  | fuel + 1, rs, fr, prev, results, mc, skp, cycles, dec =>
    if fr.pc = fr.bytecode.length then (.ok results 0, dec)
    else if cyclesOver mc cycles then (.err .CyclesExceeded, dec)
    else
      match decode_next fr.bytecode fr.pc with
      | .error e => (.err e, dec)
      | .ok (instruction, next_pc) =>
        if skp then
          execLoop fuel rs { fr with pc := next_pc } prev results mc false
            (bumpCycles mc cycles) (dec + 1)
        else
          match execute_one rs instruction fr with
          | .err e => (.err e, dec + 1)
          | .crash => (.crash, dec + 1)
          | .ok (rs', fr', disp) =>
            match disp with
            | .Continue =>
                execLoop fuel rs' { fr' with pc := next_pc } prev results mc false
                  (bumpCycles mc cycles) (dec + 1)
            | .Skip =>
                execLoop fuel rs' { fr' with pc := next_pc } prev results mc true
                  (bumpCycles mc cycles) (dec + 1)
            | .Call code_index count =>
                match Frame.get_n { fr' with pc := next_pc } count with
                | .err e => (.err e, dec + 1)
                | .crash => (.crash, dec + 1)
                | .ok (frc, args) =>
                  match frame_from_code rs' code_index args with
                  | .err e => (.err e, dec + 1)
                  | .crash => (.crash, dec + 1)
                  | .ok (rs'', nf) =>
                    execLoop fuel rs'' nf (frc :: prev) results mc false
                      (bumpCycles mc cycles) (dec + 1)
            | .Return count =>
                match fr'.get_n count with
                | .err e => (.err e, dec + 1)
                | .crash => (.crash, dec + 1)
                | .ok (_, stack_results) =>
                  match prev with
                  | [] =>
                    let rn := returnToHost results stack_results count
                    (.ok rn.1 rn.2, dec + 1)
                  | p :: rest =>
                    match p.put_n stack_results with
                    | .err e => (.err e, dec + 1)
                    | .crash => (.crash, dec + 1)
                    | .ok p' =>
                      execLoop fuel rs' p' rest results mc false
                        (bumpCycles mc cycles) (dec + 1)
            | .Jump new_pc =>
                if new_pc ≥ fr'.bytecode.length then (.err .OutOfBounds, dec + 1)
                else
                  execLoop fuel rs' { fr' with pc := new_pc } prev results mc false
                    (bumpCycles mc cycles) (dec + 1)

/-- execute (src/runtime.rs lines 49-123): build the root frame, then run
the loop with skip = false and cycles = 0. -/
def execute (rs : RState) (offset : Nat) (args results : List Nat)
    (max_cycles : Option Nat) (fuel : Nat) : ExecResult × Nat :=
  match frame_from_code rs offset args with
  | .err e => (.err e, 0)
  | .crash => (.crash, 0)
  | .ok (rs', fr) => execLoop fuel rs' fr [] results max_cycles false 0 0

/-! ## Theorems -/

/-- C1: a STORE_SLOT / STORE_SLOT_N whose word-aligned slot address lies
inside the constant pool and not inside the heap fails with
InvalidAddress, returning before any write (so heap, globals and frames
are untouched); and a store returns ok only when the slot address lies
inside the heap. -/
theorem store_slot_pool_immutable (rs : RState) (addr slot value : Nat) :
    ((addr + slot * wordSize) % M64 % wordSize = 0 →
      rs.is_in_constant_pool_range ((addr + slot * wordSize) % M64) wordSize = true →
      rs.heap.is_ptr_inside ((addr + slot * wordSize) % M64) = false →
      rs.store_slot addr slot value = .err .InvalidAddress)
    ∧ (∀ rs', rs.store_slot addr slot value = .ok rs' →
      rs.heap.is_ptr_inside ((addr + slot * wordSize) % M64) = true) := by
  constructor
  · intro hal _hpool hheap
    simp only [RState.store_slot, hal, hheap]
    simp
  · intro rs' hok
    simp only [RState.store_slot] at hok
    split at hok
    · exact absurd hok (by simp)
    · split at hok
      · assumption
      · exact absurd hok (by simp)

def witnessPool : Pool := { base := 0, data := [1, 2, 3, 4, 5, 6, 7, 8, 9, 10, 11, 12, 13, 14, 15, 16] }

def witnessHeap : HeapM := { base := 1024, words := [7, 7, 7, 7], next := 0, allocs := [] }

def witnessState : RState := { pool := witnessPool, heap := witnessHeap, globals := [0] }

def witnessStateStored : RState :=
  { pool := witnessPool, heap := { base := 1024, words := [7, 99, 7, 7], next := 0, allocs := [] }, globals := [0] }

theorem store_slot_pool_immutable_witness :
    ((0 + 1 * wordSize) % M64 % wordSize = 0
      ∧ witnessState.is_in_constant_pool_range ((0 + 1 * wordSize) % M64) wordSize = true
      ∧ witnessState.heap.is_ptr_inside ((0 + 1 * wordSize) % M64) = false
      ∧ witnessState.store_slot 0 1 99 = .err .InvalidAddress)
    ∧ (witnessState.store_slot 1024 1 99 = .ok witnessStateStored
      ∧ witnessState.heap.is_ptr_inside ((1024 + 1 * wordSize) % M64) = true) :=
  ⟨⟨by decide, by decide, by decide,
      (store_slot_pool_immutable witnessState 0 1 99).1 (by decide) (by decide) (by decide)⟩,
    by decide,
    (store_slot_pool_immutable witnessState 1024 1 99).2 witnessStateStored (by decide)⟩

/-- C5 (the claim is right, the code is wrong): BINARY Div or Mod with a
zero divisor does not surface a fault value; the source evaluates the Rust
expression n1 / n2 (resp. n1 % n2), whose divisor-zero case is a Rust
panic in every build mode, crashing the host instead of terminating the
execute call with an error. -/
theorem binary_div_zero_crashes :
    RState.binary .Divide 1 0 = .crash ∧ RState.binary .Modulo 1 0 = .crash
    ∧ ∀ e, RState.binary .Divide 1 0 ≠ .err e := by
  refine ⟨by decide, by decide, ?_⟩
  intro e
  cases e <;> decide

/-- C8 (the claim is right, the code is wrong): get_n casts the count with
`as u8` before the underflow check, so get_n(256) on a frame with sp = 0
passes the check (256 as u8 = 0) and then panics indexing the sp-long
stack view with the range [0 .. 256], instead of failing StackUnderflow. -/
theorem get_n_truncated_count_crashes :
    Frame.get_n { maxStack := 8, bytecode := [], pc := 0, locals := [], stack := [] } 256 = .crash
    ∧ Frame.get_n { maxStack := 8, bytecode := [], pc := 0, locals := [], stack := [] } 256
      ≠ .err .StackUnderflow := by
  constructor
  · decide
  · decide

/-- C9: LOAD_LOCAL_N / STORE_LOCAL_N with an index at or past local_count,
and LOAD_GLOBAL_N / STORE_GLOBAL_N with an index at or past the global
count, fail with OutOfBounds (not LocalsOverflow, not a panic); the
failing arm returns before popping or writing anything, so locals, globals
and the operand stack are unchanged. -/
theorem load_store_index_out_of_bounds (rs : RState) (i : Instr) (fr : Frame) :
    (i.opcode = .LoadLocalN → i.n1 ≥ fr.locals.length →
      execute_one rs i fr = .err .OutOfBounds)
    ∧ (i.opcode = .StoreLocalN → i.n1 ≥ fr.locals.length →
      execute_one rs i fr = .err .OutOfBounds)
    ∧ (i.opcode = .LoadGlobalN → i.n1 ≥ rs.globals.length →
      execute_one rs i fr = .err .OutOfBounds)
    ∧ (i.opcode = .StoreGlobalN → i.n1 ≥ rs.globals.length →
      execute_one rs i fr = .err .OutOfBounds) := by
  refine ⟨?_, ?_, ?_, ?_⟩ <;>
    · intro hop hn
      simp only [execute_one, hop]
      rw [if_pos hn]

def witnessFrame : Frame :=
  { maxStack := 4, bytecode := [0x14, 0x04], pc := 0, locals := [5, 6], stack := [1] }

theorem load_store_index_out_of_bounds_witness :
    (Instr.opcode ⟨.LoadLocalN, 2, 0, 0⟩ = .LoadLocalN ∧ (2 : Nat) ≥ witnessFrame.locals.length
      ∧ execute_one witnessState ⟨.LoadLocalN, 2, 0, 0⟩ witnessFrame = .err .OutOfBounds)
    ∧ execute_one witnessState ⟨.StoreLocalN, 2, 0, 0⟩ witnessFrame = .err .OutOfBounds
    ∧ execute_one witnessState ⟨.LoadGlobalN, 1, 0, 0⟩ witnessFrame = .err .OutOfBounds
    ∧ execute_one witnessState ⟨.StoreGlobalN, 1, 0, 0⟩ witnessFrame = .err .OutOfBounds :=
  ⟨⟨rfl, by decide,
      (load_store_index_out_of_bounds witnessState ⟨.LoadLocalN, 2, 0, 0⟩ witnessFrame).1
        rfl (by decide)⟩,
    (load_store_index_out_of_bounds witnessState ⟨.StoreLocalN, 2, 0, 0⟩ witnessFrame).2.1
      rfl (by decide),
    (load_store_index_out_of_bounds witnessState ⟨.LoadGlobalN, 1, 0, 0⟩ witnessFrame).2.2.1
      rfl (by decide),
    (load_store_index_out_of_bounds witnessState ⟨.StoreGlobalN, 1, 0, 0⟩ witnessFrame).2.2.2
      rfl (by decide)⟩

/-- C10: the three shift operations of BINARY are total over all operand
bit patterns, including shift amounts that encode negative values or
values at least the word width: under the release (wrapping) semantics the
spec's arithmetic table pins, the shift amount is masked to the low 6 bits
and the operation always returns ok — never a fault, never a crash. -/
theorem binary_shifts_total (p1 p2 : Nat) :
    (∃ v, RState.binary .ShiftLeft p1 p2 = .ok v)
    ∧ (∃ v, RState.binary .ShiftRight p1 p2 = .ok v)
    ∧ (∃ v, RState.binary .SignShiftRight p1 p2 = .ok v) :=
  ⟨⟨_, rfl⟩, ⟨_, rfl⟩, ⟨_, rfl⟩⟩

/-- A small program for the top-level return behavior: a code block with
max_stack 2 whose body is I 5 ; I 7 ; RETURN_N 2 (bytes 10 0a 10 0e 1b 04),
returning two values to a results view of length one. -/
def returnDemoState : RState :=
  { pool := { base := 0, data := [0, 2, 6, 0, 0x10, 0x0a, 0x10, 0x0e, 0x1b, 0x04] },
    heap := { base := 10000, words := List.replicate 16 0, next := 0, allocs := [] },
    globals := [] }

/-- C6, counterexample: a top-level RETURN of k = 2 values into a results
view of length r = 1 writes the first value and returns the count 2 — not
a count less than 2.  The claim says the returned count is less than k
whenever r < k; the code returns the declared count unconditionally. -/
theorem return_count_counterexample :
    (execute returnDemoState 0 [] [0] none 10).1 = .ok [5] 2 ∧ ¬ ((2 : Nat) < 2) :=
  ⟨by decide, by decide⟩

/-- C6, amended: when a top-level RETURN returns count values and the
results view is shorter, execute writes the first min(count, r) values,
silently drops the excess, leaves the rest of the results view untouched
— and reports the full declared count to the caller, regardless of how
many values were delivered. -/
theorem return_to_host_delivery (results values : List Nat) (count : Nat)
    (h : count ≤ values.length) :
    (returnToHost results values count).2 = count
    ∧ (returnToHost results values count).1.length = results.length
    ∧ (∀ i, i < count → i < results.length →
        (returnToHost results values count).1.getD i 0 = values.getD i 0)
    ∧ (∀ i, count ≤ i → i < results.length →
        (returnToHost results values count).1.getD i 0 = results.getD i 0) := by
  unfold returnToHost
  set n := if count < results.length then count else results.length with hn
  have hnc : n ≤ count := by rw [hn]; split <;> omega
  have hnr : n ≤ results.length := by rw [hn]; split <;> omega
  have hnv : n ≤ values.length := le_trans hnc h
  have hlen : (values.take n ++ results.drop n).length = results.length := by
    simp [List.length_take, List.length_drop]
    omega
  refine ⟨rfl, hlen, ?_, ?_⟩
  · intro i hic hir
    have hin : i < n := by rw [hn]; split <;> omega
    simp only [List.getD_eq_getElem?_getD, List.getElem?_append, List.length_take]
    rw [if_pos (by simp; omega)]
    simp [List.getElem?_take, hin]
  · intro i hci hir
    have hin : n ≤ i := le_trans hnc hci
    have hmin : n ⊓ values.length = n := by omega
    simp only [List.getD_eq_getElem?_getD, List.getElem?_append, List.length_take, hmin]
    rw [if_neg (by omega)]
    rw [List.getElem?_drop]
    have hidx : n + (i - n) = i := by omega
    rw [hidx]

theorem return_to_host_delivery_witness :
    (2 : Nat) ≤ ([5, 7] : List Nat).length
    ∧ (returnToHost [0] [5, 7] 2).2 = 2
    ∧ (returnToHost [0] [5, 7] 2).1.length = ([0] : List Nat).length
    ∧ (returnToHost [0] [5, 7] 2).1.getD 0 0 = ([5, 7] : List Nat).getD 0 0 :=
  ⟨by decide, (return_to_host_delivery [0] [5, 7] 2 (by decide)).1,
    (return_to_host_delivery [0] [5, 7] 2 (by decide)).2.1,
    (return_to_host_delivery [0] [5, 7] 2 (by decide)).2.2.1 0 (by decide) (by decide)⟩

/-- If every remaining byte has the continuation bit set, the decode loop
runs off the end of the input and fails. -/
theorem decodeUintGo_all_cont (l : List Nat) : ∀ v s,
    (∀ b ∈ l, b &&& 0x80 ≠ 0) → decodeUintGo l v s = none := by
  induction l with
  | nil => intro v s _; rfl
  | cons b rest ih =>
    intro v s hall
    have hb : b &&& 0x80 ≠ 0 := hall b (by simp)
    simp only [decodeUintGo, if_pos hb]
    cases rest with
    | nil => rfl
    | cons c rest' =>
      split
      · rfl
      · split
        · rfl
        · rw [ih _ _ (fun x hx => hall x (by simp [hx]))]
          rfl

/-- If the first k bytes all have the continuation bit set and processing
them would push the shift to the word width, the decode loop fails before
producing a value. -/
theorem decodeUintGo_shift_out : ∀ (k : Nat) (l : List Nat) (v s : Nat),
    1 ≤ k → (∀ j, j < k → (l.getD j 0) &&& 0x80 ≠ 0) → s + 7 * k ≥ MAX_SHIFT →
    decodeUintGo l v s = none := by
  intro k
  induction k with
  | zero => intro l v s h1 _ _; omega
  | succ k ih =>
    intro l v s _ hcont hs
    cases l with
    | nil =>
      have h0 := hcont 0 (by omega)
      simp at h0
    | cons b rest =>
      have hb : b &&& 0x80 ≠ 0 := by simpa using hcont 0 (by omega)
      simp only [decodeUintGo, if_pos hb]
      cases rest with
      | nil => rfl
      | cons c rest' =>
        split
        · rfl
        · split
          · rfl
          · have hk1 : 1 ≤ k := by
              simp only [MAX_SHIFT] at *
              omega
            rw [ih (c :: rest') _ (s + 7) hk1
              (fun j hj => by simpa using hcont (j + 1) (by omega))
              (by simp only [MAX_SHIFT] at *; omega)]
            rfl

/-- C7, amended: decode_uint returns None whenever the input ends
mid-number (every byte from the index on has the continuation bit set),
and rejects every encoding whose tenth byte still has the continuation bit
set, because its shift would reach the word width.  (Encodings of at most
ten bytes whose discarded high payload bits overflow the word are
accepted, with the value wrapped; see the counterexample.) -/
theorem decode_uint_failure_conditions (bytes : List Nat) (index : Nat) :
    ((∀ b ∈ bytes.drop index, b &&& 0x80 ≠ 0) → decode_uint bytes index = none)
    ∧ ((∀ j, j < 10 → (bytes.getD (index + j) 0) &&& 0x80 ≠ 0) →
      decode_uint bytes index = none) := by
  constructor
  · intro hall
    unfold decode_uint
    split
    · rfl
    · rw [decodeUintGo_all_cont _ _ _ hall]
      rfl
  · intro hten
    unfold decode_uint
    split
    · rfl
    · rw [decodeUintGo_shift_out 10 (bytes.drop index) 0 0 (by omega) ?_ (by decide)]
      · rfl
      · intro j hj
        have : (bytes.drop index).getD j 0 = bytes.getD (index + j) 0 := by
          simp [List.getD_eq_getElem?_getD, List.getElem?_drop]
        rw [this]
        exact hten j hj

theorem decode_uint_failure_conditions_witness :
    ((∀ b ∈ ([0x80] : List Nat).drop 0, b &&& 0x80 ≠ 0) ∧ decode_uint [0x80] 0 = none)
    ∧ ((∀ j, j < 10 →
        (([0x80, 0x80, 0x80, 0x80, 0x80, 0x80, 0x80, 0x80, 0x80, 0x80, 1] : List Nat).getD
          (0 + j) 0) &&& 0x80 ≠ 0)
      ∧ decode_uint [0x80, 0x80, 0x80, 0x80, 0x80, 0x80, 0x80, 0x80, 0x80, 0x80, 1] 0 = none) :=
  ⟨⟨by decide, (decode_uint_failure_conditions [0x80] 0).1 (by decide)⟩,
    by decide,
    (decode_uint_failure_conditions
      [0x80, 0x80, 0x80, 0x80, 0x80, 0x80, 0x80, 0x80, 0x80, 0x80, 1] 0).2 (by decide)⟩

/-- C7, counterexample: the ten-byte encoding 80 80 80 80 80 80 80 80 80 02
denotes 2 * 128^9 = 2^64, which overflows the host word, yet decode_uint
accepts it — the final payload is shifted by 63 and its high bit is
silently discarded, so the returned value wraps to 0 instead of the
encoding being rejected. -/
theorem decode_uint_overlong_accepted :
    decode_uint [0x80, 0x80, 0x80, 0x80, 0x80, 0x80, 0x80, 0x80, 0x80, 0x02] 0 =
      some ⟨0, 10⟩
    ∧ specUintValue [0x80, 0x80, 0x80, 0x80, 0x80, 0x80, 0x80, 0x80, 0x80, 0x02] = M64
    ∧ M64 ≤ specUintValue [0x80, 0x80, 0x80, 0x80, 0x80, 0x80, 0x80, 0x80, 0x80, 0x02] :=
  ⟨by decide, by decide, by decide⟩

/-! Helper lemmas about the heap content after allocation and the
field-copy loop of new_object. -/

theorem HeapM.writeWord_base (h : HeapM) (p v : Nat) : (h.writeWord p v).base = h.base := rfl

theorem HeapM.writeWords_base (fs : List Nat) : ∀ (h : HeapM) (a : Nat),
    (h.writeWords a fs).base = h.base := by
  induction fs with
  | nil => intro h a; rfl
  | cons f rest ih => intro h a; exact ih (h.writeWord a f) (a + wordSize)

theorem HeapM.writeWords_getD (fs : List Nat) : ∀ (h : HeapM) (k j : Nat),
    k + fs.length ≤ h.words.length →
    (h.writeWords (h.base + wordSize * k) fs).words.getD j 0 =
      if k ≤ j ∧ j < k + fs.length then fs.getD (j - k) 0 else h.words.getD j 0 := by
  induction fs with
  | nil =>
    intro h k j _
    rw [if_neg (by simp)]
    rfl
  | cons f rest ih =>
    intro h k j hlen
    have hbase : (h.writeWord (h.base + wordSize * k) f).base = h.base := rfl
    have hstep : h.base + wordSize * k + wordSize = h.base + wordSize * (k + 1) := by ring
    have hidx : (h.base + wordSize * k - h.base) / wordSize = k := by
      rw [Nat.add_sub_cancel_left, Nat.mul_div_cancel_left k (by decide : 0 < wordSize)]
    have hwlen : (h.writeWord (h.base + wordSize * k) f).words.length = h.words.length := by
      simp [HeapM.writeWord]
    have ih' := ih (h.writeWord (h.base + wordSize * k) f) (k + 1) j
      (by rw [hwlen]; simp at hlen ⊢; omega)
    simp only [HeapM.writeWords, hstep, hbase] at ih' ⊢
    rw [ih']
    by_cases hj : k + 1 ≤ j ∧ j < k + 1 + rest.length
    · rw [if_pos hj, if_pos (by simp; omega)]
      have hsp : j - k = (j - (k + 1)) + 1 := by omega
      rw [hsp]
      rfl
    · rw [if_neg hj]
      by_cases hjk : j = k
      · subst hjk
        rw [if_pos (by simp)]
        have hjlt : j < h.words.length := by simp at hlen; omega
        have hmd : wordSize * j / wordSize = j := Nat.mul_div_cancel_left j (by decide)
        simp [HeapM.writeWord, List.getD_eq_getElem?_getD, List.getElem?_set, hmd, hjlt]
      · rw [if_neg (by simp; omega)]
        simp only [HeapM.writeWord, hidx, List.getD_eq_getElem?_getD, List.getElem?_set]
        rw [if_neg (fun hh => hjk hh.symm)]

theorem allocate_array_eq (h : HeapM) (n : Nat) (hle : h.next + n ≤ h.words.length) :
    h.allocate_array n = some
      ({ base := h.base,
         words := h.words.take h.next ++ List.replicate n 0 ++ h.words.drop (h.next + n),
         next := h.next + n,
         allocs := h.allocs ++ [(h.base + wordSize * h.next, wordSize * n)] },
       h.base + wordSize * h.next) := by
  simp [HeapM.allocate_array, hle]

theorem alloc_words_length (ws : List Nat) (next n : Nat) (hle : next + n ≤ ws.length) :
    (ws.take next ++ List.replicate n 0 ++ ws.drop (next + n)).length = ws.length := by
  simp
  omega

theorem alloc_words_getD (ws : List Nat) (next n j : Nat) (hle : next + n ≤ ws.length)
    (h1 : next ≤ j) (h2 : j < next + n) :
    (ws.take next ++ List.replicate n 0 ++ ws.drop (next + n)).getD j 0 = 0 := by
  have htl : (ws.take next).length = next := by simp; omega
  simp only [List.getD_eq_getElem?_getD, List.append_assoc, List.getElem?_append, htl]
  rw [if_neg (by omega)]
  rw [if_pos (by simp; omega)]
  have hjn : j - next < n := by omega
  simp [List.getElem?_replicate, hjn]

/-- The success path of new_object, with the resulting state spelled out:
the bounds checks pass, the allocation succeeds, fill words are popped and
copied into the fresh array, and the object's heap address is returned. -/
theorem new_object_ok (rs : RState) (fr : Frame) (slots fill : Nat)
    (hs : slots ≤ 64) (hf : fill ≤ slots)
    (hm : rs.heap.next + slots ≤ rs.heap.words.length)
    (hsp : fill ≤ fr.stack.length) :
    rs.new_object slots fill fr = .ok
      ({ pool := rs.pool,
         heap := HeapM.writeWords
           { base := rs.heap.base,
             words := rs.heap.words.take rs.heap.next ++ List.replicate slots 0 ++
               rs.heap.words.drop (rs.heap.next + slots),
             next := rs.heap.next + slots,
             allocs := rs.heap.allocs ++ [(rs.heap.base + wordSize * rs.heap.next, wordSize * slots)] }
           (rs.heap.base + wordSize * rs.heap.next) ((fr.stack.take fill).reverse),
         globals := rs.globals },
       { fr with stack := fr.stack.drop fill },
       rs.heap.base + wordSize * rs.heap.next) := by
  have h256 : fill % 256 = fill := Nat.mod_eq_of_lt (by omega)
  simp only [RState.new_object, if_neg (by omega : ¬ slots > 64),
    if_neg (by omega : ¬ fill > slots), allocate_array_eq rs.heap slots hm,
    Frame.get_n, h256]
  rw [if_neg (by omega), if_pos (by omega)]
  rfl

/-- C2: NEW / NEW_N_N fails InvalidSize when slots > 64, OutOfBounds when
fill > slots, OutOfMemory when the allocator is exhausted; otherwise it
allocates a word array of slots words, pops fill words from the operand
stack and writes them in push order (bottom of the popped region into
slot 0), leaves slots [fill..slots) zero, and the NEW_N_N handler pushes
the array's heap address. -/
theorem new_object_semantics (rs : RState) (fr : Frame) (slots fill : Nat) :
    (slots > 64 → rs.new_object slots fill fr = .err .InvalidSize)
    ∧ (slots ≤ 64 → fill > slots → rs.new_object slots fill fr = .err .OutOfBounds)
    ∧ (slots ≤ 64 → fill ≤ slots → rs.heap.words.length < rs.heap.next + slots →
        rs.new_object slots fill fr = .err .OutOfMemory)
    ∧ (slots ≤ 64 → fill ≤ slots → rs.heap.next + slots ≤ rs.heap.words.length →
        fill ≤ fr.stack.length →
        ∃ rs', rs.new_object slots fill fr =
            .ok (rs', { fr with stack := fr.stack.drop fill },
              rs.heap.base + wordSize * rs.heap.next)
          ∧ (∀ i, i < fill →
              rs'.heap.wordAt (rs.heap.base + wordSize * rs.heap.next + wordSize * i) =
                ((fr.stack.take fill).reverse).getD i 0)
          ∧ (∀ i, fill ≤ i → i < slots →
              rs'.heap.wordAt (rs.heap.base + wordSize * rs.heap.next + wordSize * i) = 0)
          ∧ rs'.pool = rs.pool ∧ rs'.globals = rs.globals)
    ∧ (slots ≤ 64 → fill ≤ slots → rs.heap.next + slots ≤ rs.heap.words.length →
        fill ≤ fr.stack.length → fr.stack.length - fill < fr.maxStack →
        ∃ rs', execute_one rs ⟨.NewNN, slots, fill, 0⟩ fr =
          .ok (rs', { fr with stack :=
            (rs.heap.base + wordSize * rs.heap.next) :: fr.stack.drop fill }, .Continue)) := by
  have hfields : ∀ (h : fill ≤ fr.stack.length), ((fr.stack.take fill).reverse).length = fill := by
    intro h
    simp
    omega
  refine ⟨?_, ?_, ?_, ?_, ?_⟩
  · intro hgt
    simp only [RState.new_object, if_pos hgt]
  · intro hs hgt
    simp only [RState.new_object, if_neg (by omega : ¬ slots > 64), if_pos hgt]
  · intro hs hf hm
    have : rs.heap.allocate_array slots = none := by
      simp [HeapM.allocate_array]
      omega
    simp only [RState.new_object, if_neg (by omega : ¬ slots > 64),
      if_neg (by omega : ¬ fill > slots), this]
  · intro hs hf hm hsp
    refine ⟨_, new_object_ok rs fr slots fill hs hf hm hsp, ?_, ?_, rfl, rfl⟩
    all_goals
      intro i hi1
      try intro hi2
    · -- filled slots get the popped words, in push order
      have hWW := HeapM.writeWords_getD ((fr.stack.take fill).reverse)
        { base := rs.heap.base,
          words := rs.heap.words.take rs.heap.next ++ List.replicate slots 0 ++
            rs.heap.words.drop (rs.heap.next + slots),
          next := rs.heap.next + slots,
          allocs := rs.heap.allocs ++ [(rs.heap.base + wordSize * rs.heap.next, wordSize * slots)] }
        rs.heap.next (rs.heap.next + i)
        (by simp only [hfields hsp]
            rw [alloc_words_length _ _ _ hm]
            omega)
      simp only [HeapM.wordAt, HeapM.writeWords_base]
      have hidx : (rs.heap.base + wordSize * rs.heap.next + wordSize * i - rs.heap.base) / wordSize
          = rs.heap.next + i := by
        have : rs.heap.base + wordSize * rs.heap.next + wordSize * i - rs.heap.base
            = wordSize * (rs.heap.next + i) := by
          rw [Nat.mul_add]
          omega
        rw [this, Nat.mul_div_cancel_left _ (by decide : 0 < wordSize)]
      rw [hidx, hWW, if_pos (by rw [hfields hsp]; omega)]
      congr 1
      omega
    · -- the remaining slots are zero
      have hWW := HeapM.writeWords_getD ((fr.stack.take fill).reverse)
        { base := rs.heap.base,
          words := rs.heap.words.take rs.heap.next ++ List.replicate slots 0 ++
            rs.heap.words.drop (rs.heap.next + slots),
          next := rs.heap.next + slots,
          allocs := rs.heap.allocs ++ [(rs.heap.base + wordSize * rs.heap.next, wordSize * slots)] }
        rs.heap.next (rs.heap.next + i)
        (by simp only [hfields hsp]
            rw [alloc_words_length _ _ _ hm]
            omega)
      simp only [HeapM.wordAt, HeapM.writeWords_base]
      have hidx : (rs.heap.base + wordSize * rs.heap.next + wordSize * i - rs.heap.base) / wordSize
          = rs.heap.next + i := by
        have : rs.heap.base + wordSize * rs.heap.next + wordSize * i - rs.heap.base
            = wordSize * (rs.heap.next + i) := by
          rw [Nat.mul_add]
          omega
        rw [this, Nat.mul_div_cancel_left _ (by decide : 0 < wordSize)]
      rw [hidx, hWW, if_neg (by rw [hfields hsp]; omega)]
      exact alloc_words_getD _ _ _ _ hm (by omega) (by omega)
  · intro hs hf hm hsp hroom
    refine ⟨{ pool := rs.pool,
              heap := HeapM.writeWords
                { base := rs.heap.base,
                  words := rs.heap.words.take rs.heap.next ++ List.replicate slots 0 ++
                    rs.heap.words.drop (rs.heap.next + slots),
                  next := rs.heap.next + slots,
                  allocs := rs.heap.allocs ++
                    [(rs.heap.base + wordSize * rs.heap.next, wordSize * slots)] }
                (rs.heap.base + wordSize * rs.heap.next) ((fr.stack.take fill).reverse),
              globals := rs.globals }, ?_⟩
    simp only [execute_one, new_object_ok rs fr slots fill hs hf hm hsp, RRes.bind,
      Frame.put]
    rw [if_neg (by simp; omega)]

def newObjFrame : Frame :=
  { maxStack := 4, bytecode := [], pc := 0, locals := [], stack := [10, 20, 30] }

theorem new_object_semantics_witness :
    ((2 : Nat) ≤ 64) ∧ ((1 : Nat) ≤ 2)
    ∧ (witnessState.heap.next + 2 ≤ witnessState.heap.words.length)
    ∧ ((1 : Nat) ≤ newObjFrame.stack.length)
    ∧ (∃ rs', witnessState.new_object 2 1 newObjFrame =
          .ok (rs', { newObjFrame with stack := newObjFrame.stack.drop 1 },
            witnessState.heap.base + wordSize * witnessState.heap.next)
        ∧ (∀ i, i < 1 →
            rs'.heap.wordAt
              (witnessState.heap.base + wordSize * witnessState.heap.next + wordSize * i) =
              ((newObjFrame.stack.take 1).reverse).getD i 0)
        ∧ (∀ i, 1 ≤ i → i < 2 →
            rs'.heap.wordAt
              (witnessState.heap.base + wordSize * witnessState.heap.next + wordSize * i) = 0)
        ∧ rs'.pool = witnessState.pool ∧ rs'.globals = witnessState.globals) :=
  ⟨by decide, by decide, by decide, by decide,
    (new_object_semantics witnessState newObjFrame 2 1).2.2.2.1
      (by decide) (by decide) (by decide) (by decide)⟩

theorem decode_next_ok_lt {bytes : List Nat} {pc : Nat} {x : Instr × Nat}
    (h : decode_next bytes pc = .ok x) : pc < bytes.length := by
  by_contra hge
  unfold decode_next at h
  rw [if_pos (by omega)] at h
  exact absurd h (by simp)

/-- C3: IF pops exactly one word from the operand stack; a nonzero word
continues normally and a zero word sets the skip flag (first conjunct);
with the skip flag set, the next decoded instruction — whatever it is and
however many bytes it occupies — is discarded whole: the loop merely
clears the flag and moves the PC past it, leaving the frame's stack and
locals, the heap, the globals and the caller chain untouched (second
conjunct). -/
theorem if_skip_semantics (fuel : Nat) (rs : RState) (fr : Frame) (prev : List Frame)
    (results : List Nat) (mc : Option Nat) (cycles dec : Nat)
    (instruction : Instr) (next_pc : Nat) (v : Nat) (s : List Nat)
    (hdec : decode_next fr.bytecode fr.pc = .ok (instruction, next_pc))
    (hcy : cyclesOver mc cycles = false) :
    (instruction.opcode = .If → fr.stack = v :: s →
      execLoop (fuel + 1) rs fr prev results mc false cycles dec =
        execLoop fuel rs { fr with pc := next_pc, stack := s } prev results mc
          (decide (v = 0)) (bumpCycles mc cycles) (dec + 1))
    ∧ (execLoop (fuel + 1) rs fr prev results mc true cycles dec =
        execLoop fuel rs { fr with pc := next_pc } prev results mc false
          (bumpCycles mc cycles) (dec + 1)) := by
  have hlt := decode_next_ok_lt hdec
  constructor
  · intro hop hst
    obtain ⟨op, n1, n2, off⟩ := instruction
    simp only [Instr.opcode] at hop
    subst hop
    simp only [execLoop, if_neg (show ¬ fr.pc = fr.bytecode.length by omega), hcy, hdec,
      Bool.false_eq_true, if_false, execute_one, Frame.get, hst]
    by_cases hv : v = 0
    · simp [hv, RRes.bind]
    · simp [hv, RRes.bind]
  · simp only [execLoop, if_neg (show ¬ fr.pc = fr.bytecode.length by omega), hcy, hdec,
      Bool.false_eq_true, if_false]
    exact if_pos trivial

def ifFrame : Frame :=
  { maxStack := 4, bytecode := [0x0a, 0x00], pc := 0, locals := [], stack := [0, 9] }

theorem if_skip_semantics_witness :
    (decode_next ifFrame.bytecode ifFrame.pc = .ok (⟨.If, 0, 0, 0⟩, 1))
    ∧ cyclesOver none 0 = false
    ∧ (Instr.opcode ⟨.If, 0, 0, 0⟩ = .If)
    ∧ ifFrame.stack = 0 :: [9]
    ∧ (execLoop 2 witnessState ifFrame [] [] none false 0 0 =
        execLoop 1 witnessState { ifFrame with pc := 1, stack := [9] } [] [] none
          (decide ((0 : Nat) = 0)) (bumpCycles none 0) (0 + 1))
    ∧ (execLoop 2 witnessState ifFrame [] [] none true 0 0 =
        execLoop 1 witnessState { ifFrame with pc := 1 } [] [] none false
          (bumpCycles none 0) (0 + 1)) :=
  ⟨rfl, rfl, rfl, rfl,
    (if_skip_semantics 1 witnessState ifFrame [] [] none 0 0 ⟨.If, 0, 0, 0⟩ 1 0 [9]
      rfl rfl).1 rfl rfl,
    (if_skip_semantics 1 witnessState ifFrame [] [] none 0 0 ⟨.If, 0, 0, 0⟩ 1 0 [9]
      rfl rfl).2⟩

/-! Helper lemmas for the cycle-accounting claim: no operation of the
dispatch ever produces the CyclesExceeded fault — it arises only from the
loop's own counter check. -/

theorem RRes.bind_ne {α β : Type} {x : RRes α} {f : α → RRes β} {e : ErrorCode}
    (hx : x ≠ .err e) (hf : ∀ a, f a ≠ .err e) : x.bind f ≠ .err e := by
  cases x with
  | ok a => exact hf a
  | err e' =>
    simp only [RRes.bind]
    intro hh
    apply hx
    injection hh with he
    rw [he]
  | crash => simp [RRes.bind]

theorem Frame.get_ne (fr : Frame) : fr.get ≠ .err .CyclesExceeded := by
  cases hs : fr.stack <;> simp [Frame.get, hs]

theorem Frame.put_ne (fr : Frame) (v : Nat) : fr.put v ≠ .err .CyclesExceeded := by
  unfold Frame.put
  split <;> simp

theorem Frame.get_n_ne (fr : Frame) (n : Nat) : fr.get_n n ≠ .err .CyclesExceeded := by
  by_cases h1 : fr.stack.length < n % 256
  · simp [Frame.get_n, h1]
  · by_cases h2 : fr.stack.length - n % 256 + n ≤ fr.stack.length
    · simp [Frame.get_n, h1, h2]
    · simp [Frame.get_n, h1, h2]

theorem Frame.put_n_ne : ∀ (items : List Nat) (fr : Frame),
    fr.put_n items ≠ .err .CyclesExceeded := by
  intro items
  induction items with
  | nil => intro fr; simp [Frame.put_n]
  | cons v rest ih =>
    intro fr
    exact RRes.bind_ne (fr.put_ne v) fun fr' => ih fr'

theorem Frame.start_locals_ne (fr : Frame) (values : List Nat) :
    fr.start_locals values ≠ .err .CyclesExceeded := by
  unfold Frame.start_locals
  split <;> simp

theorem RState.safeConstantWord_ne (rs : RState) (addr : Nat) :
    rs.safeConstantWord addr ≠ .err .CyclesExceeded := by
  unfold RState.safeConstantWord
  split <;> try split
  all_goals simp

theorem RState.safeConstantHeader_ne (rs : RState) (addr : Nat) :
    rs.safeConstantHeader addr ≠ .err .CyclesExceeded := by
  unfold RState.safeConstantHeader
  split <;> simp

theorem RState.safeConstantSlice_ne (rs : RState) (addr len : Nat) :
    rs.safeConstantSlice addr len ≠ .err .CyclesExceeded := by
  unfold RState.safeConstantSlice
  split <;> simp

theorem RState.object_size_ne (rs : RState) (addr : Nat) :
    rs.object_size addr ≠ .err .CyclesExceeded := by
  unfold RState.object_size
  split <;> simp

theorem RState.load_slot_ne (rs : RState) (addr slot : Nat) :
    rs.load_slot addr slot ≠ .err .CyclesExceeded := by
  by_cases h : (addr + slot * wordSize) % M64 % wordSize = 0
  · have := rs.safeConstantWord_ne ((addr + slot * wordSize) % M64)
    simpa [RState.load_slot, h] using this
  · simp [RState.load_slot, h]

theorem RState.store_slot_ne (rs : RState) (addr slot value : Nat) :
    rs.store_slot addr slot value ≠ .err .CyclesExceeded := by
  by_cases h : (addr + slot * wordSize) % M64 % wordSize = 0
  · by_cases h2 : rs.heap.is_ptr_inside ((addr + slot * wordSize) % M64) = true
    · simp [RState.store_slot, h, h2]
    · simp [RState.store_slot, h, h2]
  · simp [RState.store_slot, h]

theorem RState.new_object_ne (rs : RState) (slots fill : Nat) (fr : Frame) :
    rs.new_object slots fill fr ≠ .err .CyclesExceeded := by
  unfold RState.new_object
  split
  · simp
  · split
    · simp
    · split
      · simp
      · exact RRes.bind_ne (fr.get_n_ne fill) fun _ => by simp

theorem RState.unary_ne (op : UnaryOp) (p : Nat) :
    RState.unary op p ≠ .err .CyclesExceeded := by
  cases op <;> simp [RState.unary]

theorem RState.binary_ne (op : BinaryOp) (p1 p2 : Nat) :
    RState.binary op p1 p2 ≠ .err .CyclesExceeded := by
  cases op <;> unfold RState.binary <;> (repeat' split) <;> simp

theorem frame_from_code_ne (rs : RState) (offset : Nat) (args : List Nat) :
    frame_from_code rs offset args ≠ .err .CyclesExceeded := by
  unfold frame_from_code
  apply RRes.bind_ne (rs.safeConstantHeader_ne _)
  intro h
  split
  · simp
  · apply RRes.bind_ne (rs.safeConstantSlice_ne _ _)
    intro bc
    split
    · simp
    · apply RRes.bind_ne (Frame.start_locals_ne _ _)
      intro fr'
      simp

theorem execute_one_ne (rs : RState) (instruction : Instr) (fr : Frame) :
    execute_one rs instruction fr ≠ .err .CyclesExceeded := by
  obtain ⟨op, n1, n2, off⟩ := instruction
  cases op <;> simp only [execute_one] <;>
    (repeat' first
        | exact Frame.get_ne _
        | exact Frame.put_ne _ _
        | exact Frame.get_n_ne _ _
        | exact RState.new_object_ne _ _ _ _
        | exact RState.object_size_ne _ _
        | exact RState.load_slot_ne _ _ _
        | exact RState.store_slot_ne _ _ _ _
        | exact RState.unary_ne _ _
        | exact RState.binary_ne _ _ _
        | apply RRes.bind_ne
        | split
        | simp
        | intro _)

theorem decode_next_err_truncated {bytes : List Nat} {pc : Nat} {e : ErrorCode}
    (h : decode_next bytes pc = .error e) : e = .TruncatedCode := by
  unfold decode_next at h
  split at h
  · injection h with he
    exact he.symm
  · dsimp only at h
    split at h
    · split at h
      · injection h with he
        exact he.symm
      · split at h
        · split at h
          · injection h with he
            exact he.symm
          · exact absurd h (by simp)
        · exact absurd h (by simp)
    · exact absurd h (by simp)

/-- The loop invariant for cycle accounting: with max_cycles = m, every
iteration decodes one instruction and consumes one cycle, so if the loop
ends in CyclesExceeded the number of instructions decoded during it is
exactly m - cycles. -/
theorem execLoop_cycles_invariant : ∀ (fuel : Nat) (rs : RState) (fr : Frame)
    (prev : List Frame) (results : List Nat) (m : Nat) (skp : Bool) (cycles dec : Nat)
    (res : ExecResult) (dec' : Nat),
    execLoop fuel rs fr prev results (some m) skp cycles dec = (res, dec') →
    res = .err .CyclesExceeded → cycles ≤ m →
    dec' = dec + (m - cycles) := by
  intro fuel
  induction fuel with
  | zero =>
    intro rs fr prev results m skp cycles dec res dec' h hres hcm
    simp only [execLoop] at h
    injection h with h1 h2
    subst h1
    exact absurd hres (by simp)
  | succ fuel ih =>
    intro rs fr prev results m skp cycles dec res dec' h hres hcm
    simp only [execLoop, bumpCycles, cyclesOver] at h
    split at h
    · injection h with h1 h2
      subst h1
      exact absurd hres (by simp)
    · split at h
      · rename_i hover
        simp only [decide_eq_true_eq] at hover
        injection h with h1 h2
        subst h1
        subst h2
        omega
      · rename_i hover
        simp only [decide_eq_true_eq] at hover
        have hlt : cycles < m := by omega
        split at h
        · rename_i e hdec
          injection h with h1 h2
          subst h1
          injection hres with he
          rw [he] at hdec
          have := decode_next_err_truncated hdec
          simp at this
        · rename_i x hdec
          split at h
          · have := ih _ _ _ _ _ _ _ _ _ _ h hres (by omega)
            omega
          · split at h
            · rename_i e hexec
              injection h with h1 h2
              subst h1
              injection hres with he
              rw [he] at hexec
              exact absurd hexec (execute_one_ne _ _ _)
            · injection h with h1 h2
              subst h1
              exact absurd hres (by simp)
            · rename_i out hexec
              split at h
              · have := ih _ _ _ _ _ _ _ _ _ _ h hres (by omega)
                omega
              · have := ih _ _ _ _ _ _ _ _ _ _ h hres (by omega)
                omega
              · -- Call disposition
                split at h
                · rename_i e hgn
                  injection h with h1 h2
                  subst h1
                  injection hres with he
                  rw [he] at hgn
                  exact absurd hgn (Frame.get_n_ne _ _)
                · injection h with h1 h2
                  subst h1
                  exact absurd hres (by simp)
                · split at h
                  · rename_i e hffc
                    injection h with h1 h2
                    subst h1
                    injection hres with he
                    rw [he] at hffc
                    exact absurd hffc (frame_from_code_ne _ _ _)
                  · injection h with h1 h2
                    subst h1
                    exact absurd hres (by simp)
                  · have := ih _ _ _ _ _ _ _ _ _ _ h hres (by omega)
                    omega
              · -- Return disposition
                split at h
                · rename_i e hgn
                  injection h with h1 h2
                  subst h1
                  injection hres with he
                  rw [he] at hgn
                  exact absurd hgn (Frame.get_n_ne _ _)
                · injection h with h1 h2
                  subst h1
                  exact absurd hres (by simp)
                · split at h
                  · injection h with h1 h2
                    subst h1
                    exact absurd hres (by simp)
                  · split at h
                    · rename_i e hpn
                      injection h with h1 h2
                      subst h1
                      injection hres with he
                      rw [he] at hpn
                      exact absurd hpn (Frame.put_n_ne _ _)
                    · injection h with h1 h2
                      subst h1
                      exact absurd hres (by simp)
                    · have := ih _ _ _ _ _ _ _ _ _ _ h hres (by omega)
                      omega
              · -- Jump disposition
                split at h
                · injection h with h1 h2
                  subst h1
                  exact absurd hres (by simp)
                · have := ih _ _ _ _ _ _ _ _ _ _ h hres (by omega)
                  omega

/-- C4: with max_cycles = m, each decoded instruction — the skipped one
included — consumes exactly one cycle, checked before the decode, so an
execute call that fails CyclesExceeded has decoded exactly m instructions
(the ghost counter the model returns alongside the result). -/
theorem execute_cycles_exact (rs : RState) (offset : Nat) (args results : List Nat)
    (m fuel : Nat)
    (h : (execute rs offset args results (some m) fuel).1 = .err .CyclesExceeded) :
    (execute rs offset args results (some m) fuel).2 = m := by
  cases hffc : frame_from_code rs offset args with
  | err e =>
    simp only [execute, hffc] at h
    injection h with he
    rw [he] at hffc
    exact absurd hffc (frame_from_code_ne _ _ _)
  | crash =>
    simp only [execute, hffc] at h
    exact absurd h (by simp)
  | ok out =>
    obtain ⟨rsf, fr⟩ := out
    simp only [execute, hffc] at h ⊢
    have := execLoop_cycles_invariant fuel rsf fr [] results m false 0 0
      (execLoop fuel rsf fr [] results (some m) false 0 0).1
      (execLoop fuel rsf fr [] results (some m) false 0 0).2
      rfl h (by omega)
    omega

/-- A hot loop: a code block whose body is JUMP 0 (bytes 1c 00). -/
def jumpLoopState : RState :=
  { pool := { base := 0, data := [0, 0, 2, 0, 0x1c, 0x00] },
    heap := { base := 10000, words := List.replicate 16 0, next := 0, allocs := [] },
    globals := [] }

theorem execute_cycles_exact_witness :
    (execute jumpLoopState 0 [] [] (some 3) 10).1 = .err .CyclesExceeded
    ∧ (execute jumpLoopState 0 [] [] (some 3) 10).2 = 3 :=
  ⟨by decide, execute_cycles_exact jumpLoopState 0 [] [] 3 10 (by decide)⟩

end Mwrt
